import Mathlib

/-!
# Verification of the autoscan scan-queue processor

Shallow embedding of the autoscan repository's core data model and
operations, with proofs of the specification's claims about them.

The embedding follows the Go source:
* `src/processor/datastore.go` — the scan store (`sqlUpsert`,
  `sqlGetAvailableScan`, `sqlDelete`, `Upsert`);
* `src/processor/processor.go` — `Process`, `CheckAnchors`, `pathExists`;
* `src/autoscan_test.go` — the inotify coalescing `queue`
  (`queue.add`, `queue.process`);
* `src/unnamed/part_004` — the cloud-drive `syncJob.Run` retry logic;
* `src/unnamed/part_003` — `getFolderPath` upward folder walk;
* `src/triggers/bernard/postprocess.go` — `reclassifyTrashed`.
-/

namespace Autoscan

/-- A scan notification / scan-store row: exactly the four fields of the
`scan` table (`folder` is the primary key). Mirrors `autoscan.Scan`. -/
structure Scan where
  folder : String
  relativePath : String
  priority : Int
  time : Int
deriving Repr, DecidableEq

/-- The scan store contents: the rows of the `scan` table. The primary-key
invariant (at most one row per folder) is proved, not assumed. -/
abbrev Store := List Scan

/-- Row lookup by primary key `folder`. -/
def findScan (store : Store) (folder : String) : Option Scan :=
  store.find? (fun r => r.folder == folder)

/-- Number of rows with the given folder (used to state the primary-key
invariant). -/
def countFolder (store : Store) (folder : String) : Nat :=
  store.countP (fun r => r.folder == folder)

/-- The `ON CONFLICT (folder) DO UPDATE` clause of `sqlUpsert`
(src/processor/datastore.go):
`priority = MAX(excluded.priority, scan.priority)`,
`relative_path = excluded.relative_path`, `time = excluded.time`. -/
def mergeScan (existing incoming : Scan) : Scan :=
  { folder := existing.folder
    relativePath := incoming.relativePath
    priority := max incoming.priority existing.priority
    time := incoming.time }

/-- One execution of `sqlUpsert`: insert the row, or on primary-key
conflict update the existing row per `mergeScan`. -/
def execUpsert (store : Store) (s : Scan) : Store :=
  match store with
  | [] => [s]
  | r :: rest =>
      if r.folder == s.folder then mergeScan r s :: rest
      else r :: execUpsert rest s

/-- A sequence of upserts applied in order. -/
def upsertAll (store : Store) (scans : List Scan) : Store :=
  scans.foldl execUpsert store

/-- Maximum priority of a scan list, at least `p` (priority of the existing
state being merged into). -/
def maxPriority (p : Int) (scans : List Scan) : Int :=
  scans.foldl (fun m s => max m s.priority) p

theorem execUpsert_findScan_eq (store : Store) (s : Scan) :
    findScan (execUpsert store s) s.folder =
      some (match findScan store s.folder with
            | some r => mergeScan r s
            | none => s) := by
  induction store with
  | nil => simp [execUpsert, findScan, List.find?]
  | cons r rest ih =>
      by_cases h : r.folder == s.folder
      · simp [execUpsert, h, findScan, List.find?, mergeScan]
      · simp only [execUpsert, h, if_neg, Bool.false_eq_true, if_false]
        simp only [findScan, List.find?] at ih ⊢
        simp [h, ih]

theorem execUpsert_findScan_ne (store : Store) (s : Scan) (f : String)
    (hne : f ≠ s.folder) :
    findScan (execUpsert store s) f = findScan store f := by
  have hsf : (s.folder == f) = false := by
    cases hc : (s.folder == f)
    · rfl
    · exact absurd (eq_of_beq hc).symm hne
  induction store with
  | nil => simp [execUpsert, findScan, List.find?, hsf]
  | cons r rest ih =>
      by_cases h : r.folder == s.folder
      · have hrf : (mergeScan r s).folder = r.folder := rfl
        have hrfne : (r.folder == f) = false := by
          cases hc : (r.folder == f)
          · rfl
          · exact absurd (((eq_of_beq hc).symm).trans (eq_of_beq h)) hne
        simp [execUpsert, h, findScan, List.find?, hrf, hrfne]
      · simp only [execUpsert, h, Bool.false_eq_true, if_false]
        simp only [findScan, List.find?] at ih ⊢
        cases hc : (r.folder == f) <;> simp [hc, ih]

theorem execUpsert_countFolder (store : Store) (s : Scan) :
    countFolder (execUpsert store s) s.folder =
      max (countFolder store s.folder) 1 := by
  induction store with
  | nil => simp [execUpsert, countFolder]
  | cons r rest ih =>
      by_cases h : r.folder == s.folder
      · have hm : (mergeScan r s).folder = r.folder := rfl
        simp only [execUpsert, h, if_true]
        simp only [countFolder, List.countP_cons, hm, h, if_true]
        omega
      · simp only [execUpsert, h, Bool.false_eq_true, if_false]
        simp only [countFolder, List.countP_cons] at ih ⊢
        simp only [h, Bool.false_eq_true, if_false, ih]
        omega

theorem execUpsert_countFolder_ne (store : Store) (s : Scan) (f : String)
    (hne : f ≠ s.folder) :
    countFolder (execUpsert store s) f = countFolder store f := by
  have hsf : (s.folder == f) = false := by
    cases hc : (s.folder == f)
    · rfl
    · exact absurd (eq_of_beq hc).symm hne
  induction store with
  | nil => simp [execUpsert, countFolder, hsf]
  | cons r rest ih =>
      by_cases h : r.folder == s.folder
      · have hm : (mergeScan r s).folder = r.folder := rfl
        simp [execUpsert, h, countFolder, List.countP_cons, hm]
      · simp only [execUpsert, h, Bool.false_eq_true, if_false]
        simp only [countFolder, List.countP_cons] at ih ⊢
        simp [ih]

theorem findScan_none_countFolder (store : Store) (f : String)
    (h : findScan store f = none) : countFolder store f = 0 := by
  simp only [findScan, List.find?_eq_none] at h
  simp only [countFolder, List.countP_eq_zero]
  exact h

theorem upsertAll_countFolder_le_one (f : String) (scans : List Scan)
    (store : Store) (h : countFolder store f ≤ 1) :
    countFolder (upsertAll store scans) f ≤ 1 := by
  induction scans generalizing store with
  | nil => simpa [upsertAll]
  | cons s rest ih =>
      simp only [upsertAll, List.foldl_cons] at ih ⊢
      apply ih
      by_cases hf : f = s.folder
      · subst hf
        rw [execUpsert_countFolder]
        omega
      · rw [execUpsert_countFolder_ne store s f hf]
        exact h

/-- relative_path of the most recent upsert, defaulting to `d`. -/
def lastRel (d : String) (scans : List Scan) : String :=
  scans.foldl (fun _ s => s.relativePath) d

/-- time of the most recent upsert, defaulting to `d`. -/
def lastTime (d : Int) (scans : List Scan) : Int :=
  scans.foldl (fun _ s => s.time) d

theorem upsertAll_chain (f : String) (scans : List Scan) :
    ∀ (store : Store) (r : Scan),
    (∀ s ∈ scans, s.folder = f) →
    findScan store f = some r → r.folder = f →
    countFolder store f = 1 →
    findScan (upsertAll store scans) f =
      some { folder := f, relativePath := lastRel r.relativePath scans,
             priority := maxPriority r.priority scans,
             time := lastTime r.time scans } ∧
    countFolder (upsertAll store scans) f = 1 := by
  induction scans with
  | nil =>
      intro store r _ hr hrf hc
      refine ⟨?_, by simpa [upsertAll] using hc⟩
      simp only [upsertAll, List.foldl_nil, lastRel, lastTime, maxPriority, List.foldl_nil]
      rw [hr]
      cases r
      simp_all
  | cons s rest ih =>
      intro store r hall hr hrf hc
      have hsf : s.folder = f := hall s (by simp)
      have hstep : findScan (execUpsert store s) f = some (mergeScan r s) := by
        have := execUpsert_findScan_eq store s
        rw [hsf] at this
        rw [this, hr]
      have hcstep : countFolder (execUpsert store s) f = 1 := by
        have := execUpsert_countFolder store s
        rw [hsf] at this
        rw [this, hc]
        rfl
      have hmf : (mergeScan r s).folder = f := by
        simp [mergeScan, hrf]
      have hrest : ∀ x ∈ rest, x.folder = f := fun x hx => hall x (by simp [hx])
      have hmain := ih (execUpsert store s) (mergeScan r s) hrest hstep hmf hcstep
      simp only [upsertAll, List.foldl_cons] at hmain ⊢
      refine ⟨?_, hmain.2⟩
      rw [hmain.1]
      simp only [mergeScan, lastRel, lastTime, maxPriority, List.foldl_cons]
      rw [max_comm r.priority s.priority]

/-- **C1.** For every sequence of upserts targeting the same folder `f`,
starting from a store with no row for `f`, the stored row afterwards has
`priority` equal to the maximum of all upserted priorities, and
`relative&#95;path` and `time` equal to those of the most recent upsert;
after the whole sequence there is exactly one row for `f`, and after every
prefix of the sequence at most one row for `f` ever exists. -/
theorem upsert_same_folder_merge (f : String) (s0 : Scan) (scans : List Scan)
    (store0 : Store)
    (hall : ∀ s ∈ s0 :: scans, s.folder = f)
    (h0 : findScan store0 f = none) :
    findScan (upsertAll store0 (s0 :: scans)) f =
      some { folder := f, relativePath := lastRel s0.relativePath scans,
             priority := maxPriority s0.priority scans,
             time := lastTime s0.time scans } ∧
    countFolder (upsertAll store0 (s0 :: scans)) f = 1 ∧
    (∀ pre : List Scan, countFolder (upsertAll store0 pre) f ≤ 1) := by
  have hc0 : countFolder store0 f = 0 := findScan_none_countFolder store0 f h0
  have hs0f : s0.folder = f := hall s0 (by simp)
  have hstep : findScan (execUpsert store0 s0) f = some s0 := by
    have := execUpsert_findScan_eq store0 s0
    rw [hs0f] at this
    rw [this, h0]
  have hcstep : countFolder (execUpsert store0 s0) f = 1 := by
    have := execUpsert_countFolder store0 s0
    rw [hs0f] at this
    rw [this, hc0]
    rfl
  have hrest : ∀ x ∈ scans, x.folder = f := fun x hx => hall x (by simp [hx])
  have hmain := upsertAll_chain f scans (execUpsert store0 s0) s0 hrest hstep hs0f hcstep
  simp only [upsertAll, List.foldl_cons] at hmain ⊢
  refine ⟨hmain.1, hmain.2, ?_⟩
  intro pre
  exact upsertAll_countFolder_le_one f pre store0 (by omega)

/-- Witness for C1 at the spec's end-to-end scenario 1: inputs
(priority, time) = (2, 1), (5, 2), (3, 3) on folder `F` give the stored
row priority 5, time 3, relative path of the last upsert. -/
theorem upsert_same_folder_merge_witness :
    findScan (upsertAll []
      [⟨"F", "", 2, 1⟩, ⟨"F", "", 5, 2⟩, ⟨"F", "", 3, 3⟩]) "F" =
      some ⟨"F", "", 5, 3⟩ ∧
    countFolder (upsertAll []
      [⟨"F", "", 2, 1⟩, ⟨"F", "", 5, 2⟩, ⟨"F", "", 3, 3⟩]) "F" = 1 := by
  have h := upsert_same_folder_merge "F" ⟨"F", "", 2, 1⟩
    [⟨"F", "", 5, 2⟩, ⟨"F", "", 3, 3⟩] [] (by decide) (by decide)
  refine ⟨?_, ?_⟩
  · have h1 := h.1
    simpa [lastRel, lastTime, maxPriority] using h1
  · exact h.2.1

/-- Error results of the scan store (sentinels from `autoscan`):
`ErrNoScans` is the "no scans" sentinel. -/
inductive StoreErr where
  | noScans
deriving Repr, DecidableEq

/-- The `WHERE time < ?` filter of `sqlGetAvailableScan`, with
`? = now().Add(-minAge).Unix()`. -/
def eligibleScans (cut : Int) (store : Store) : Store :=
  store.filter (fun r => decide (r.time < cut))

/-- Whether `cand` sorts strictly before `cur` under the
`ORDER BY priority DESC, time ASC` ordering of `sqlGetAvailableScan`. -/
def betterScan (cur cand : Scan) : Bool :=
  decide (cur.priority < cand.priority ∨
    (cand.priority = cur.priority ∧ cand.time < cur.time))

/-- One comparison step of the `LIMIT 1` selection. -/
def pickStep (best cand : Scan) : Scan :=
  if betterScan best cand then cand else best

/-- `ORDER BY priority DESC, time ASC LIMIT 1`: select a first row of the
ordering (ties within equal `(priority, time)` broken by list position,
which SQL leaves unspecified). -/
def pickBest : Store → Option Scan
  | [] => none
  | r :: rest => some (rest.foldl pickStep r)

/-- `GetAvailableScan` (src/processor/datastore.go): run
`sqlGetAvailableScan` with cutoff `now − minAge`; `ErrNoScans` when the
query yields no row. -/
def GetAvailableScan (now minAge : Int) (store : Store) : Except StoreErr Scan :=
  match pickBest (eligibleScans (now - minAge) store) with
  | none => .error .noScans
  | some r => .ok r

/-- `r` is at least as good as `x` under `priority DESC, time ASC`. -/
def dominates (r x : Scan) : Prop :=
  x.priority ≤ r.priority ∧ (x.priority = r.priority → r.time ≤ x.time)

theorem dominates_refl (r : Scan) : dominates r r :=
  ⟨le_refl _, fun _ => le_refl _⟩

theorem dominates_trans {a b c : Scan} (h1 : dominates a b) (h2 : dominates b c) :
    dominates a c := by
  unfold dominates at *
  constructor
  · omega
  · intro h
    omega

theorem betterScan_true_dominates {cur cand : Scan}
    (h : betterScan cur cand = true) : dominates cand cur := by
  unfold betterScan at h
  rw [decide_eq_true_iff] at h
  unfold dominates
  omega

theorem betterScan_false_dominates {cur cand : Scan}
    (h : betterScan cur cand = false) : dominates cur cand := by
  unfold betterScan at h
  rw [decide_eq_false_iff_not] at h
  unfold dominates
  omega

theorem pickFold_spec (l : List Scan) : ∀ (r : Scan),
    l.foldl pickStep r ∈ r :: l ∧ dominates (l.foldl pickStep r) r ∧
    ∀ x ∈ l, dominates (l.foldl pickStep r) x := by
  induction l with
  | nil =>
      intro r
      exact ⟨by simp, dominates_refl r, by simp⟩
  | cons x xs ih =>
      intro r
      have hstep := ih (pickStep r x)
      have hdomx : dominates (pickStep r x) x := by
        unfold pickStep
        cases hb : betterScan r x
        · simpa [hb] using betterScan_false_dominates hb
        · simpa [hb] using dominates_refl x
      have hdomr : dominates (pickStep r x) r := by
        unfold pickStep
        cases hb : betterScan r x
        · simpa [hb] using dominates_refl r
        · simpa [hb] using betterScan_true_dominates hb
      refine ⟨?_, ?_, ?_⟩
      · have hmem := hstep.1
        simp only [List.foldl_cons]
        rcases List.mem_cons.mp hmem with h | h
        · have hpx : pickStep r x = r ∨ pickStep r x = x := by
            unfold pickStep
            cases betterScan r x <;> simp
          rcases hpx with hpx | hpx <;> rw [hpx] at h ⊢ <;> simp [h]
        · simp [h]
      · simp only [List.foldl_cons]
        exact dominates_trans hstep.2.1 hdomr
      · intro y hy
        simp only [List.foldl_cons]
        rcases List.mem_cons.mp hy with h | h
        · subst h
          exact dominates_trans hstep.2.1 hdomx
        · exact hstep.2.2 y h

/-- **C2.** For every store state, `now` and `minimumAge`,
`GetAvailableScan` returns exactly one row which is in the store, has
`time < now − minimumAge`, has the highest priority among all such rows
and, within that priority, the earliest time; and it returns the
`ErrNoScans` sentinel exactly when no row satisfies
`time < now − minimumAge`. -/
theorem getAvailableScan_spec (now minAge : Int) (store : Store) :
    (∀ r, GetAvailableScan now minAge store = .ok r →
      r ∈ store ∧ r.time < now - minAge ∧
      ∀ x ∈ store, x.time < now - minAge →
        x.priority ≤ r.priority ∧ (x.priority = r.priority → r.time ≤ x.time)) ∧
    (GetAvailableScan now minAge store = .error .noScans ↔
      ∀ x ∈ store, ¬ x.time < now - minAge) := by
  have hmem : ∀ y, y ∈ eligibleScans (now - minAge) store ↔
      y ∈ store ∧ y.time < now - minAge := by
    intro y
    simp [eligibleScans, List.mem_filter]
  constructor
  · intro r hok
    unfold GetAvailableScan at hok
    cases hp : pickBest (eligibleScans (now - minAge) store) with
    | none => rw [hp] at hok; cases hok
    | some b =>
        rw [hp] at hok
        cases hok
        cases hel : eligibleScans (now - minAge) store with
        | nil => rw [hel] at hp; cases hp
        | cons e es =>
            rw [hel] at hp
            unfold pickBest at hp
            have hspec := pickFold_spec es e
            injection hp with hp
            subst hp
            have hrmem : es.foldl pickStep e ∈ eligibleScans (now - minAge) store := by
              rw [hel]
              exact hspec.1
            refine ⟨((hmem _).mp hrmem).1, ((hmem _).mp hrmem).2, ?_⟩
            intro x hx hxt
            have hxe : x ∈ e :: es := by
              rw [← hel]
              exact (hmem x).mpr ⟨hx, hxt⟩
            rcases List.mem_cons.mp hxe with h | h
            · subst h
              exact hspec.2.1
            · exact hspec.2.2 x h
  · unfold GetAvailableScan
    cases hel : eligibleScans (now - minAge) store with
    | nil =>
        simp only [pickBest]
        constructor
        · intro _ x hx hxt
          have : x ∈ eligibleScans (now - minAge) store := (hmem x).mpr ⟨hx, hxt⟩
          rw [hel] at this
          cases this
        · intro _
          trivial
    | cons e es =>
        simp only [pickBest]
        constructor
        · intro h
          cases h
        · intro hall
          have : e ∈ eligibleScans (now - minAge) store := by
            rw [hel]; simp
          have he := (hmem e).mp this
          exact absurd he.2 (hall e he.1)

/-- Witness for C2 at the spec's scenario 3: rows X (priority 1) and
Y (priority 9), both eligible; the returned row is Y and it dominates
every eligible row. -/
theorem getAvailableScan_spec_witness :
    (⟨"Y", "", 9, 10⟩ : Scan) ∈ ([⟨"X", "", 1, 0⟩, ⟨"Y", "", 9, 10⟩] : Store) ∧
    (10 : Int) < 100 - 5 ∧
    ∀ x ∈ ([⟨"X", "", 1, 0⟩, ⟨"Y", "", 9, 10⟩] : Store), x.time < 100 - 5 →
      x.priority ≤ (9 : Int) ∧ (x.priority = (9 : Int) → (10 : Int) ≤ x.time) :=
  (getAvailableScan_spec 100 5 [⟨"X", "", 1, 0⟩, ⟨"Y", "", 9, 10⟩]).1
    ⟨"Y", "", 9, 10⟩ rfl

/-- Counterexample for C4: with `now = 100` and `minimumAge = 10`, a stored
row whose `time` equals `now − minimumAge = 90` is **not** returned by the
eligibility query — `sqlGetAvailableScan` uses the strict comparison
`time < ?`, so `GetAvailableScan` yields the `ErrNoScans` sentinel. -/
theorem boundary_row_not_returned :
    GetAvailableScan 100 10 [⟨"F", "", 1, 90⟩] = .error .noScans := by
  rfl

/-- **C4 (amended).** A stored row becomes eligible for dispatch exactly
when `time < now − minimumAge` (strict): some row is returned iff a row
with `time < now − minimumAge` exists, and every returned row satisfies
the strict inequality — a row whose `time` equals `now − minimumAge` is
never returned. -/
theorem eligibility_strict_cutoff (now minAge : Int) (store : Store) :
    ((∃ r, GetAvailableScan now minAge store = .ok r) ↔
      ∃ x ∈ store, x.time < now - minAge) ∧
    (∀ r, GetAvailableScan now minAge store = .ok r → r.time < now - minAge) := by
  have hspec := getAvailableScan_spec now minAge store
  constructor
  · constructor
    · rintro ⟨r, hr⟩
      have h := hspec.1 r hr
      exact ⟨r, h.1, h.2.1⟩
    · rintro ⟨x, hx, hxt⟩
      cases hres : GetAvailableScan now minAge store with
      | ok r => exact ⟨r, rfl⟩
      | error e =>
          cases e
          have := hspec.2.mp hres x hx
          exact absurd hxt this
  · intro r hr
    exact (hspec.1 r hr).2.1

/-- Witness for the amended C4: a row strictly inside the window is
returned, while `boundary_row_not_returned` shows the boundary row is
not. -/
theorem eligibility_strict_cutoff_witness :
    ∃ r, GetAvailableScan 100 10 [⟨"F", "", 1, 89⟩] = .ok r :=
  (eligibility_strict_cutoff 100 10 [⟨"F", "", 1, 89⟩]).1.mpr
    ⟨⟨"F", "", 1, 89⟩, by simp, by norm_num⟩

/-- `execUpsert` as run inside the transaction of `Upsert`
(src/processor/datastore.go): the SQL exec may fail; `failOn` models which
rows' exec fails. -/
def execUpsertE (failOn : Scan → Bool) (cur : Store) (s : Scan) :
    Except String Store :=
  if failOn s then .error "exec upsert" else .ok (execUpsert cur s)

/-- The loop body of `Upsert`: apply each scan in order inside the
transaction, stopping at the first error. -/
def upsertTx (failOn : Scan → Bool) : List Scan → Store → Except String Store
  | [], cur => .ok cur
  | s :: rest, cur =>
      match execUpsertE failOn cur s with
      | .error e => .error e
      | .ok cur2 => upsertTx failOn rest cur2

/-- `Upsert` (src/processor/datastore.go): early return on the empty
slice; otherwise run all upserts in one transaction — commit on success,
roll back (leaving the visible store unchanged) on any per-row error. -/
def Upsert (failOn : Scan → Bool) (scans : List Scan) (db : Store) :
    Option String × Store :=
  if scans.isEmpty then (none, db)
  else
    match upsertTx failOn scans db with
    | .ok cur => (none, cur)
    | .error e => (some e, db)

theorem upsertTx_ok (failOn : Scan → Bool) (scans : List Scan) :
    ∀ db : Store, (∀ s ∈ scans, failOn s = false) →
      upsertTx failOn scans db = .ok (upsertAll db scans) := by
  induction scans with
  | nil => intro db _; rfl
  | cons s rest ih =>
      intro db hall
      have hs : failOn s = false := hall s (by simp)
      simp only [upsertTx, execUpsertE, hs, Bool.false_eq_true, if_false]
      simp only [upsertAll, List.foldl_cons]
      exact ih (execUpsert db s) (fun x hx => hall x (by simp [hx]))

theorem upsertTx_error (failOn : Scan → Bool) (scans : List Scan) :
    ∀ db : Store, (∃ s ∈ scans, failOn s = true) →
      ∃ e, upsertTx failOn scans db = .error e := by
  induction scans with
  | nil =>
      intro db h
      rcases h with ⟨s, hs, _⟩
      cases hs
  | cons s rest ih =>
      intro db h
      cases hf : failOn s with
      | true => exact ⟨"exec upsert", by simp [upsertTx, execUpsertE, hf]⟩
      | false =>
          rcases h with ⟨x, hx, hxf⟩
          rcases List.mem_cons.mp hx with hxs | hxs
          · subst hxs; rw [hf] at hxf; cases hxf
          · rcases ih (execUpsert db s) ⟨x, hxs, hxf⟩ with ⟨e, he⟩
            exact ⟨e, by simp [upsertTx, execUpsertE, hf, he]⟩

/-- **C5.** `Upsert` is atomic across the whole slice: when no per-row
exec fails, every notification is applied (the result is `upsertAll`);
when any per-row exec fails, the transaction is rolled back and the
visible store is unchanged; `Upsert` of the empty slice leaves the store
unchanged and returns no error. -/
theorem upsert_atomic (failOn : Scan → Bool) (scans : List Scan) (db : Store) :
    ((∀ s ∈ scans, failOn s = false) →
      Upsert failOn scans db = (none, upsertAll db scans)) ∧
    ((∃ s ∈ scans, failOn s = true) →
      ∃ e, Upsert failOn scans db = (some e, db)) ∧
    Upsert failOn [] db = (none, db) := by
  refine ⟨?_, ?_, rfl⟩
  · intro hall
    cases scans with
    | nil => simp [Upsert, upsertAll]
    | cons s rest =>
        have h := upsertTx_ok failOn (s :: rest) db hall
        simp [Upsert, h]
  · intro hex
    cases scans with
    | nil =>
        rcases hex with ⟨s, hs, _⟩
        cases hs
    | cons s rest =>
        rcases upsertTx_error failOn (s :: rest) db hex with ⟨e, he⟩
        exact ⟨e, by simp [Upsert, he]⟩

/-- Witness for C5: a failing row rolls the whole slice back, an all-good
slice is fully applied, and the empty slice is a no-op. -/
theorem upsert_atomic_witness :
    Upsert (fun s => s.folder == "bad") [⟨"A", "", 1, 0⟩] [] =
      (none, upsertAll [] [⟨"A", "", 1, 0⟩]) ∧
    (∃ e, Upsert (fun s => s.folder == "bad")
      [⟨"A", "", 1, 0⟩, ⟨"bad", "", 1, 0⟩] [] = (some e, [])) ∧
    Upsert (fun s => s.folder == "bad") [] [] = (none, []) :=
  ⟨(upsert_atomic (fun s => s.folder == "bad") [⟨"A", "", 1, 0⟩] []).1
      (by decide),
   (upsert_atomic (fun s => s.folder == "bad")
      [⟨"A", "", 1, 0⟩, ⟨"bad", "", 1, 0⟩] []).2.1
      ⟨⟨"bad", "", 1, 0⟩, by simp, by decide⟩,
   (upsert_atomic (fun s => s.folder == "bad") [] []).2.2⟩

/-- `sqlDelete` (src/processor/datastore.go):
`DELETE FROM scan WHERE folder=?`. -/
def deleteScan (store : Store) (folder : String) : Store :=
  store.filter (fun r => !(r.folder == folder))

/-- A target's `Scan` call: `none` is success, `some e` is the error the
target returned. -/
abbrev Target := Scan → Option String

/-- `callTargets` (src/processor/processor.go): dispatch to all targets
and return the first error (the errgroup's choice among concurrent
failures is determinized here by list position). -/
def callTargets (targets : List Target) (s : Scan) : Option String :=
  targets.foldl
    (fun acc t => match acc with | some e => some e | none => t s) none

/-- Errors `Process` can return. -/
inductive ProcErr where
  | noScans
  | target (e : String)
deriving Repr, DecidableEq

/-- Processor state visible to `Process`: the scan store and the
`processed` stats counter. -/
structure ProcState where
  store : Store
  processed : Int
deriving Repr, DecidableEq

/-- `Process` (src/processor/processor.go): fetch the next available scan
(propagating `ErrNoScans`), dispatch to all targets, and only on success
delete the row and increment `processed`. -/
def Process (targets : List Target) (now minAge : Int) (st : ProcState) :
    Except ProcErr Unit × ProcState :=
  match GetAvailableScan now minAge st.store with
  | .error .noScans => (.error .noScans, st)
  | .ok scan =>
      match callTargets targets scan with
      | some e => (.error (.target e), st)
      | none =>
          (.ok (),
           { store := deleteScan st.store scan.folder
             processed := st.processed + 1 })

theorem callTargets_none_iff (targets : List Target) (s : Scan) :
    callTargets targets s = none ↔ ∀ t ∈ targets, t s = none := by
  have hstuck : ∀ (e : String) (l : List Target),
      l.foldl (fun acc t => match acc with | some e => some e | none => t s)
        (some e) = some e := by
    intro e l
    induction l with
    | nil => rfl
    | cons t rest ih => simpa using ih
  induction targets with
  | nil => simp [callTargets]
  | cons t rest ih =>
      simp only [callTargets, List.foldl_cons] at ih ⊢
      cases ht : t s with
      | none => simp [ht, ih]
      | some e =>
          simp only [hstuck e rest]
          constructor
          · intro h
            cases h
          · intro h
            have := h t (by simp)
            rw [ht] at this
            cases this

theorem deleteScan_findScan (store : Store) (f : String) :
    findScan (deleteScan store f) f = none := by
  simp only [findScan, deleteScan, List.find?_eq_none]
  intro x hx
  have := (List.mem_filter.mp hx).2
  simpa using this

/-- **C3.** For every `Process` call that dispatches a scan: if every
target's `Scan` succeeds, the dispatched folder's row is deleted from the
store and the `processed` counter increases by exactly 1; if any target
returns an error, `Process` returns that error and the state — the store
with all four fields of every row, and the counter — is unchanged. -/
theorem process_spec (targets : List Target) (now minAge : Int)
    (st : ProcState) (scan : Scan)
    (h : GetAvailableScan now minAge st.store = .ok scan) :
    ((∀ t ∈ targets, t scan = none) →
      Process targets now minAge st =
        (.ok (), ⟨deleteScan st.store scan.folder, st.processed + 1⟩) ∧
      findScan (deleteScan st.store scan.folder) scan.folder = none) ∧
    ((∃ t ∈ targets, t scan ≠ none) →
      ∃ e, Process targets now minAge st = (.error (.target e), st)) := by
  constructor
  · intro hall
    have hct : callTargets targets scan = none :=
      (callTargets_none_iff targets scan).mpr hall
    refine ⟨?_, deleteScan_findScan st.store scan.folder⟩
    simp [Process, h, hct]
  · intro hex
    cases hct : callTargets targets scan with
    | none =>
        rcases hex with ⟨t, ht, hne⟩
        exact absurd ((callTargets_none_iff targets scan).mp hct t ht) hne
    | some e =>
        exact ⟨e, by simp [Process, h, hct]⟩

/-- Witness for C3: one row, one succeeding target (row deleted, counter
bumped) and one failing target (error returned, state untouched). -/
theorem process_spec_witness :
    (Process [fun _ => none] 100 10 ⟨[⟨"F", "", 1, 0⟩], 0⟩ =
        (.ok (), ⟨deleteScan [⟨"F", "", 1, 0⟩] "F", 0 + 1⟩) ∧
      findScan (deleteScan [⟨"F", "", 1, 0⟩] "F") "F" = none) ∧
    (∃ e, Process [fun _ => some "boom"] 100 10 ⟨[⟨"F", "", 1, 0⟩], 0⟩ =
        (.error (.target e), ⟨[⟨"F", "", 1, 0⟩], 0⟩)) :=
  ⟨(process_spec [fun _ => none] 100 10 ⟨[⟨"F", "", 1, 0⟩], 0⟩
      ⟨"F", "", 1, 0⟩ rfl).1 (by intro t ht; simp at ht; simp [ht]),
   (process_spec [fun _ => some "boom"] 100 10 ⟨[⟨"F", "", 1, 0⟩], 0⟩
      ⟨"F", "", 1, 0⟩ rfl).2 ⟨fun _ => some "boom", by simp, by simp⟩⟩

/-- `pathExists` (src/processor/processor.go): a filesystem stat that
succeeds regardless of file-vs-directory type; the filesystem is modelled
as the set of paths `fs` on which stat succeeds. -/
def pathExists (fs : String → Bool) (path : String) : Bool := fs path

/-- `p.anchorState[anchor] = available`: update (or create) the
per-anchor last-known-availability entry. -/
def setAnchor (state : List (String × Bool)) (a : String) (v : Bool) :
    List (String × Bool) :=
  match state with
  | [] => [(a, v)]
  | (k, b) :: rest => if k == a then (k, v) :: rest else (k, b) :: setAnchor rest a v

/-- `CheckAnchors` (src/processor/processor.go): unconditional `true` when
no anchors are configured; otherwise stat every anchor, record its
availability in the anchor-state map, and report whether all are
available. Transition logging does not affect the result. -/
def CheckAnchors (fs : String → Bool) (anchors : List String)
    (state : List (String × Bool)) : List (String × Bool) × Bool :=
  if anchors.isEmpty then (state, true)
  else anchors.foldl
    (fun (acc : List (String × Bool) × Bool) anchor =>
      let available := pathExists fs anchor
      (setAnchor acc.1 anchor available, acc.2 && available))
    (state, true)

theorem checkAnchors_fold (fs : String → Bool) (anchors : List String) :
    ∀ (state : List (String × Bool)) (b : Bool),
    (anchors.foldl
      (fun (acc : List (String × Bool) × Bool) anchor =>
        (setAnchor acc.1 anchor (pathExists fs anchor),
         acc.2 && pathExists fs anchor))
      (state, b)).2 = (b && anchors.all fs) := by
  induction anchors with
  | nil => intro state b; simp
  | cons a rest ih =>
      intro state b
      simp only [List.foldl_cons, List.all_cons]
      rw [ih]
      simp [pathExists, Bool.and_assoc]

/-- **C6.** For every anchor configuration, filesystem and anchor-state
map, `CheckAnchors` returns `true` iff every configured anchor path
exists (its stat succeeds, file or directory alike); with no anchors
configured it returns `true` unconditionally. -/
theorem checkAnchors_iff (fs : String → Bool) (anchors : List String)
    (state : List (String × Bool)) :
    ((CheckAnchors fs anchors state).2 = true ↔ ∀ a ∈ anchors, fs a = true) ∧
    (CheckAnchors fs [] state).2 = true := by
  refine ⟨?_, rfl⟩
  unfold CheckAnchors
  cases anchors with
  | nil => simp
  | cons a rest =>
      simp only [List.isEmpty_cons, Bool.false_eq_true, if_false]
      rw [checkAnchors_fold fs (a :: rest) state true]
      simp [List.all_eq_true]

/-- Witness for C6: with filesystem `{/mnt/a}`, a configuration whose
only anchor is `/mnt/a` checks true. -/
theorem checkAnchors_iff_witness :
    (CheckAnchors (fun p => p == "/mnt/a") ["/mnt/a"] []).2 = true :=
  (checkAnchors_iff (fun p => p == "/mnt/a") ["/mnt/a"] []).1.mpr
    (by intro a ha; simp at ha; simp [ha])

/-- `maxSyncRetries = 5` (src/unnamed/part_004). -/
def maxSyncRetries : Nat := 5

/-- Behavioural classification of one sync run's result, mirroring the
error classes `syncJob.Run` distinguishes (src/unnamed/part_004). -/
inductive SyncOutcome where
  | success
  | invalidCredentials
  | dataAnomaly
  | network
  | fatal
  | other
deriving Repr, DecidableEq

/-- The mutable fields of `syncJob` plus whether the cron job is still
registered (`cron.Remove` unregisters). -/
structure SyncJob where
  attempts : Nat
  errors : List SyncOutcome
  registered : Bool
deriving Repr, DecidableEq

/-- `syncJob.Run` (src/unnamed/part_004): bump `attempts`; on success
reset `attempts`/`errors`; on fatal unregister immediately; otherwise
record the error and unregister once `attempts` reaches
`maxSyncRetries`. -/
def syncRun (s : SyncJob) (r : SyncOutcome) : SyncJob :=
  let s1 : SyncJob := { s with attempts := s.attempts + 1 }
  match r with
  | .success => { s1 with attempts := 0, errors := [] }
  | .fatal => { s1 with registered := false }
  | _ =>
      let s2 : SyncJob := { s1 with errors := s1.errors ++ [r] }
      if maxSyncRetries ≤ s2.attempts then { s2 with registered := false }
      else s2

/-- A sequence of cron invocations of `syncJob.Run`. -/
def runSeq (s : SyncJob) (rs : List SyncOutcome) : SyncJob :=
  rs.foldl syncRun s

/-- A run result that is neither success nor fatal: the retryable and
"unexpected" classes, which share the retry bookkeeping. -/
def isNonFatalFailure (r : SyncOutcome) : Bool :=
  !(r == .success) && !(r == .fatal)

theorem syncRun_failure_step (s : SyncJob) (r : SyncOutcome)
    (h : isNonFatalFailure r = true) :
    (syncRun s r).attempts = s.attempts + 1 ∧
    (syncRun s r).registered =
      (if maxSyncRetries ≤ s.attempts + 1 then false else s.registered) := by
  cases r
  case success => simp [isNonFatalFailure] at h
  case fatal => simp [isNonFatalFailure] at h
  all_goals
    simp only [syncRun]
    by_cases hc : maxSyncRetries ≤ s.attempts + 1 <;> simp [hc]

theorem runSeq_failures (rs : List SyncOutcome)
    (hall : ∀ r ∈ rs, isNonFatalFailure r = true) :
    ∀ s : SyncJob, s.registered = true →
      s.attempts < maxSyncRetries →
      s.attempts + rs.length ≤ maxSyncRetries →
      (runSeq s rs).attempts = s.attempts + rs.length ∧
      (runSeq s rs).registered =
        decide (s.attempts + rs.length < maxSyncRetries) := by
  induction rs with
  | nil =>
      intro s hreg hlt _
      refine ⟨by simp [runSeq], ?_⟩
      simp only [runSeq, List.foldl_nil, List.length_nil, Nat.add_zero]
      rw [hreg]
      simp [hlt]
  | cons r rest ih =>
      intro s hreg hlt hle
      have hr : isNonFatalFailure r = true := hall r (by simp)
      have hrest : ∀ x ∈ rest, isNonFatalFailure x = true :=
        fun x hx => hall x (by simp [hx])
      have hstep := syncRun_failure_step s r hr
      simp only [runSeq, List.foldl_cons, List.length_cons] at ih ⊢
      cases rest with
      | nil =>
          simp only [List.foldl_nil, List.length_nil]
          refine ⟨by rw [hstep.1], ?_⟩
          rw [hstep.2, hreg]
          by_cases hc : maxSyncRetries ≤ s.attempts + 1
          · have h2 : ¬ s.attempts + (0 + 1) < maxSyncRetries := by omega
            simp [hc, h2]
          · have h2 : s.attempts + (0 + 1) < maxSyncRetries := by omega
            simp [hc, h2]
      | cons r2 rest2 =>
          have hnle : ¬ maxSyncRetries ≤ s.attempts + 1 := by
            simp only [List.length_cons] at hle
            omega
          have hreg2 : (syncRun s r).registered = true := by
            rw [hstep.2, hreg]
            simp [hnle]
          have hmain := ih hrest (syncRun s r) hreg2
            (by rw [hstep.1]; simp only [List.length_cons] at hle; omega)
            (by rw [hstep.1]; simp only [List.length_cons] at hle ⊢; omega)
          rw [hstep.1] at hmain
          refine ⟨?_, ?_⟩
          · rw [hmain.1]
            simp only [List.length_cons]
            omega
          · rw [hmain.2]
            simp only [List.length_cons, decide_eq_decide]
            omega

/-- **C7.** For every sync-job run sequence: a fatal run unregisters the
cron job immediately; a successful run resets the `attempts` counter and
the accumulated `errors` list; from a fresh registered job, 5 consecutive
non-fatal failing runs (`maxSyncRetries`) unregister the job, while fewer
than 5 leave it registered. -/
theorem syncJob_retry_policy :
    (∀ s : SyncJob, (syncRun s .fatal).registered = false) ∧
    (∀ s : SyncJob, (syncRun s .success).attempts = 0 ∧
      (syncRun s .success).errors = []) ∧
    (∀ rs : List SyncOutcome, (∀ r ∈ rs, isNonFatalFailure r = true) →
      ∀ s : SyncJob, s.registered = true → s.attempts = 0 →
        (rs.length = maxSyncRetries → (runSeq s rs).registered = false) ∧
        (rs.length < maxSyncRetries → (runSeq s rs).registered = true)) := by
  refine ⟨fun s => rfl, fun s => ⟨rfl, rfl⟩, ?_⟩
  intro rs hall s hreg hatt
  have h5 : maxSyncRetries = 5 := rfl
  constructor
  · intro hlen
    have hmain := runSeq_failures rs hall s hreg (by omega) (by omega)
    rw [hmain.2, hatt, hlen]
    decide
  · intro hlen
    have hmain := runSeq_failures rs hall s hreg (by omega) (by omega)
    rw [hmain.2, hatt]
    simpa using hlen

/-- Witness for C7: a fatal run unregisters; five consecutive network
failures from a fresh job unregister it, while two leave it
registered. -/
theorem syncJob_retry_policy_witness :
    (syncRun ⟨3, [], true⟩ .fatal).registered = false ∧
    (runSeq ⟨0, [], true⟩
      [.network, .network, .network, .network, .network]).registered = false ∧
    (runSeq ⟨0, [], true⟩ [.network, .network]).registered = true :=
  ⟨syncJob_retry_policy.1 ⟨3, [], true⟩,
   (syncJob_retry_policy.2.2
      [.network, .network, .network, .network, .network]
      (by decide) ⟨0, [], true⟩ rfl rfl).1 (by decide),
   (syncJob_retry_policy.2.2 [.network, .network]
      (by decide) ⟨0, [], true⟩ rfl rfl).2 (by decide)⟩

/-- The 10-second coalescing window of `queue.add`
(src/autoscan_test.go). -/
def coalesceWindow : Int := 10

/-- The in-memory `q.scans` map `folder → firing time`, as an association
list with at most one entry per folder (map semantics). -/
abbrev ScanMap := List (String × Int)

/-- Firing-time lookup in the scans map. -/
def lookupTime (m : ScanMap) (p : String) : Option Int :=
  (m.find? (fun e => e.1 == p)).map (fun e => e.2)

/-- `queue.add` (src/autoscan_test.go): under the lock, set
`q.scans[path] = now + 10s`, creating or refreshing the entry. -/
def qAdd (m : ScanMap) (path : String) (now : Int) : ScanMap :=
  match m with
  | [] => [(path, now + coalesceWindow)]
  | (k, t) :: rest =>
      if k == path then (k, now + coalesceWindow) :: rest
      else (k, t) :: qAdd rest path now

/-- `queue.process` (src/autoscan_test.go): under the lock, collect the
entries whose firing time is not in the future (`now.Before(t)` fails,
i.e. `t ≤ now`), delete them from the map, and emit one scan per removed
entry with folder `filepath.Clean(path)` (abstracted as `cleanFn`), the
queue's priority, and time `now`. -/
def qProcess (cleanFn : String → String) (priority : Int) (m : ScanMap)
    (now : Int) : ScanMap × List Scan :=
  if m.isEmpty then (m, [])
  else
    (m.filter (fun e => decide (now < e.2)),
     (m.filter (fun e => !decide (now < e.2))).map
       (fun e => ⟨cleanFn e.1, "", priority, now⟩))

/-- The `now` of the most recent event, defaulting to `t0`. -/
def lastT (t0 : Int) (ts : List Int) : Int :=
  ts.foldl (fun _ t => t) t0

theorem qAdd_lookup_self (m : ScanMap) (p : String) (now : Int) :
    lookupTime (qAdd m p now) p = some (now + coalesceWindow) := by
  induction m with
  | nil => simp [qAdd, lookupTime, List.find?]
  | cons e rest ih =>
      obtain ⟨k, t⟩ := e
      by_cases h : k == p
      · simp [qAdd, h, lookupTime, List.find?]
      · simp only [qAdd, h, Bool.false_eq_true, if_false]
        simp only [lookupTime, List.find?] at ih ⊢
        simp only [h]
        exact ih

theorem qAdd_lookup_other (m : ScanMap) (p q : String) (now : Int)
    (hne : q ≠ p) :
    lookupTime (qAdd m p now) q = lookupTime m q := by
  have hpq : (p == q) = false := by
    cases hc : (p == q)
    · rfl
    · exact absurd (eq_of_beq hc).symm hne
  induction m with
  | nil => simp [qAdd, lookupTime, List.find?, hpq]
  | cons e rest ih =>
      obtain ⟨k, t⟩ := e
      by_cases h : k == p
      · have hkq : (k == q) = false := by
          cases hc : (k == q)
          · rfl
          · exact absurd (((eq_of_beq hc).symm).trans (eq_of_beq h)) hne
        simp [qAdd, h, lookupTime, List.find?, hkq]
      · simp only [qAdd, h, Bool.false_eq_true, if_false]
        simp only [lookupTime, List.find?] at ih ⊢
        cases hc : (k == q) <;> simp [hc, ih]

theorem qAdd_fold_same (p : String) (ts : List Int) :
    ∀ t0 : Int,
      ts.foldl (fun acc t => qAdd acc p t) [(p, t0 + coalesceWindow)] =
        [(p, lastT t0 ts + coalesceWindow)] := by
  induction ts with
  | nil => intro t0; rfl
  | cons t rest ih =>
      intro t0
      have hstep : qAdd [(p, t0 + coalesceWindow)] p t =
          [(p, t + coalesceWindow)] := by
        simp [qAdd]
      simp only [List.foldl_cons, hstep]
      exact ih t

/-- **C8.** Each inotify event sets the folder's firing time to
`now + 10 s` (refreshing any pending entry while leaving other folders
alone); the periodic tick removes from the map exactly the entries whose
firing time is not in the future and emits exactly one scan notification
per removed folder; in particular, any number of events for one folder
before it fires leave a single entry, and the tick after the window
emits exactly one notification for that folder. -/
theorem inotify_coalesce (cleanFn : String → String) (priority : Int)
    (m : ScanMap) (p : String) (now : Int) :
    lookupTime (qAdd m p now) p = some (now + coalesceWindow) ∧
    (∀ q, q ≠ p → lookupTime (qAdd m p now) q = lookupTime m q) ∧
    (∀ e ∈ m,
      (now < e.2 → e ∈ (qProcess cleanFn priority m now).1) ∧
      (e.2 ≤ now → e ∉ (qProcess cleanFn priority m now).1 ∧
        (⟨cleanFn e.1, "", priority, now⟩ : Scan) ∈
          (qProcess cleanFn priority m now).2)) ∧
    (qProcess cleanFn priority m now).2.length =
      (m.filter (fun e => !decide (now < e.2))).length ∧
    (∀ (t0 : Int) (ts : List Int) (fireNow : Int),
      lastT t0 ts + coalesceWindow ≤ fireNow →
      qProcess cleanFn priority
        (ts.foldl (fun acc t => qAdd acc p t) (qAdd [] p t0)) fireNow =
        ([], [⟨cleanFn p, "", priority, fireNow⟩])) := by
  have hproc : (qProcess cleanFn priority m now).1 =
        m.filter (fun e => decide (now < e.2)) ∧
      (qProcess cleanFn priority m now).2 =
        (m.filter (fun e => !decide (now < e.2))).map
          (fun e => ⟨cleanFn e.1, "", priority, now⟩) := by
    unfold qProcess
    cases hm : m.isEmpty
    · simp [hm]
    · have : m = [] := List.isEmpty_iff.mp hm
      subst this
      simp
  refine ⟨qAdd_lookup_self m p now,
    fun q hq => qAdd_lookup_other m p q now hq, ?_, ?_, ?_⟩
  · intro e he
    constructor
    · intro hlt
      rw [hproc.1]
      exact List.mem_filter.mpr ⟨he, by simpa using hlt⟩
    · intro hle
      constructor
      · intro hmem
        rw [hproc.1] at hmem
        have := (List.mem_filter.mp hmem).2
        simp at this
        omega
      · rw [hproc.2]
        exact List.mem_map.mpr
          ⟨e, List.mem_filter.mpr ⟨he, by simp; omega⟩, rfl⟩
  · rw [hproc.2, List.length_map]
  · intro t0 ts fireNow hfire
    have hinit : qAdd [] p t0 = [(p, t0 + coalesceWindow)] := rfl
    rw [hinit, qAdd_fold_same p ts t0]
    have hnotlt : ¬ fireNow < lastT t0 ts + coalesceWindow := by omega
    simp [qProcess, hnotlt]

/-- Witness for C8 at the spec's scenario 4: three bursty events for
`/m/x` coalesce to a single entry, and the tick after the window emits
exactly one notification for `/m/x`. -/
theorem inotify_coalesce_witness :
    qProcess (fun s => s) 5
      (([0, 1] : List Int).foldl (fun acc t => qAdd acc "/m/x" t)
        (qAdd [] "/m/x" 0)) 11 =
      ([], [⟨"/m/x", "", 5, 11⟩]) :=
  (inotify_coalesce (fun s => s) 5 [] "/m/x" 0).2.2.2.2 0 [0, 1] 11
    (by decide)

/-- A Bernard datastore folder: id, name, parent id, trashed flag. -/
structure Folder where
  id : String
  name : String
  parent : String
  trashed : Bool
deriving Repr, DecidableEq

/-- The combined folder view of `getFolderPath` (src/unnamed/part_003):
the in-diff `folderMap` first, falling back to the datastore. Caching a
datastore hit back into the map does not change this combined view. -/
def lookupFolder (folderMap store : String → Option Folder)
    (id : String) : Option Folder :=
  match folderMap id with
  | some f => some f
  | none => store id

/-- The `for nextFolderID != "" && nextFolderID != driveID` loop of
`getFolderPath`, instrumented with fuel: `none` means the loop has not
finished within `fuel` iterations (so divergence is `none` for every
fuel). `join` abstracts `filepath.Join`. -/
def folderLoop (join : String → String → String)
    (lk : String → Option Folder) (driveID : String) :
    Nat → String → String → Option (Except String String)
  | 0, _, _ => none
  | fuel + 1, nextID, path =>
      if nextID = "" ∨ nextID = driveID then some (.ok ("/" ++ path))
      else
        match lk nextID with
        | none => some (.error nextID)
        | some f => folderLoop join lk driveID fuel f.parent (join f.name path)

/-- `getFolderPath` (src/unnamed/part_003) with fuel: the drive id maps
to `/`; otherwise resolve the top folder and walk parent links upward. -/
def getFolderPathFuel (join : String → String → String)
    (lk : String → Option Folder) (driveID folderID : String)
    (fuel : Nat) : Option (Except String String) :=
  if folderID = driveID then some (.ok "/")
  else
    match lk folderID with
    | none => some (.error folderID)
    | some top => folderLoop join lk driveID fuel top.parent top.name

/-- The upward walk terminates: some finite number of loop iterations
suffices to produce a result (path or error). -/
def GetFolderPathTerminates (join : String → String → String)
    (lk : String → Option Folder) (driveID folderID : String) : Prop :=
  ∃ fuel, getFolderPathFuel join lk driveID folderID fuel ≠ none

/-- `filepath.Join` on clean, non-empty components. -/
def joinPath (a b : String) : String := a ++ "/" ++ b

/-- Corrupt state: folders A and B whose parent links form a 2-cycle. -/
def cycFolderMap : String → Option Folder := fun id =>
  if id = "A" then some ⟨"A", "a", "B", false⟩
  else if id = "B" then some ⟨"B", "b", "A", false⟩
  else none

theorem cyc_loop_none : ∀ (fuel : Nat) (next path : String),
    next = "A" ∨ next = "B" →
    folderLoop joinPath cycFolderMap "D" fuel next path = none := by
  intro fuel
  induction fuel with
  | zero => intro next path _; rfl
  | succ n ih =>
      intro next path h
      rcases h with h | h <;> subst h
      · have hstop : ¬("A" = "" ∨ "A" = "D") := by decide
        have hlk : cycFolderMap "A" = some ⟨"A", "a", "B", false⟩ := by
          simp [cycFolderMap]
        simp only [folderLoop, hstop, if_false, hlk]
        exact ih "B" (joinPath "a" path) (Or.inr rfl)
      · have hstop : ¬("B" = "" ∨ "B" = "D") := by decide
        have hlk : cycFolderMap "B" = some ⟨"B", "b", "A", false⟩ := by
          simp [cycFolderMap]
        simp only [folderLoop, hstop, if_false, hlk]
        exact ih "A" (joinPath "b" path) (Or.inl rfl)

/-- Counterexample for C9: `getFolderPath` has no defensive iteration cap;
on the corrupt 2-cycle `A ↔ B` the upward walk started at `A` never
finishes, for any number of iterations. -/
theorem getFolderPath_cycle_diverges :
    ¬ GetFolderPathTerminates joinPath cycFolderMap "D" "A" := by
  rintro ⟨fuel, hf⟩
  apply hf
  have hne : ¬ ("A" : String) = "D" := by decide
  have hlk : cycFolderMap "A" = some ⟨"A", "a", "B", false⟩ := by
    simp [cycFolderMap]
  simp only [getFolderPathFuel, hne, if_false, hlk]
  exact cyc_loop_none fuel "B" "a" (Or.inr rfl)

theorem folderLoop_rank_fuel (join : String → String → String)
    (lk : String → Option Folder) (driveID : String) (rank : String → Nat)
    (hrank : ∀ id f, lk id = some f → rank f.parent < rank id) :
    ∀ (n : Nat) (id path : String), rank id < n →
      folderLoop join lk driveID n id path ≠ none := by
  intro n
  induction n with
  | zero => intro id path h; omega
  | succ m ih =>
      intro id path _
      by_cases hstop : id = "" ∨ id = driveID
      · simp [folderLoop, hstop]
      · cases hlk : lk id with
        | none => simp [folderLoop, hstop, hlk]
        | some f =>
            simp only [folderLoop, hstop, if_false]
            rw [hlk]
            by_cases hm : rank f.parent < m
            · exact ih f.parent (join f.name path) hm
            · -- rank decreases along every parent link, so iterating from
              -- f.parent needs at most rank f.parent + 1 ≤ m steps; when
              -- the remaining fuel is too small the rank bound on id
              -- contradicts hrank
              have hlt := hrank id f hlk
              have : rank f.parent < m := by omega
              exact ih f.parent (join f.name path) this

/-- **C9 (amended).** The upward folder-path walk has no defensive
iteration cap: on corrupt state whose parent links form a cycle it never
terminates (see the counterexample); it does terminate on every input
whose combined folder view is acyclic, witnessed by any rank function
that strictly decreases along parent links. -/
theorem getFolderPath_terminates_acyclic (join : String → String → String)
    (lk : String → Option Folder) (driveID folderID : String)
    (rank : String → Nat)
    (hrank : ∀ id f, lk id = some f → rank f.parent < rank id) :
    GetFolderPathTerminates join lk driveID folderID := by
  by_cases hd : folderID = driveID
  · exact ⟨0, by simp [getFolderPathFuel, hd]⟩
  · cases hlk : lk folderID with
    | none => exact ⟨0, by simp [getFolderPathFuel, hd, hlk]⟩
    | some top =>
        refine ⟨rank top.parent + 1, ?_⟩
        simp only [getFolderPathFuel, hd, if_false]
        rw [hlk]
        exact folderLoop_rank_fuel join lk driveID rank hrank
          (rank top.parent + 1) top.parent top.name (by omega)

/-- The intact tree C → B → A → drive used to witness the amended C9. -/
def chainFolderMap : String → Option Folder := fun id =>
  if id = "C" then some ⟨"C", "c", "B", false⟩
  else if id = "B" then some ⟨"B", "b", "A", false⟩
  else if id = "A" then some ⟨"A", "a", "D", false⟩
  else none

/-- Depth bound for `chainFolderMap`, decreasing along parent links. -/
def chainRank : String → Nat := fun id =>
  if id = "C" then 3 else if id = "B" then 2 else if id = "A" then 1 else 0

/-- Witness for the amended C9: the walk over the intact three-level tree
terminates. -/
theorem getFolderPath_terminates_acyclic_witness :
    GetFolderPathTerminates joinPath chainFolderMap "D" "C" :=
  getFolderPath_terminates_acyclic joinPath chainFolderMap "D" "C" chainRank
    (by
      intro id f hf
      simp only [chainFolderMap] at hf
      split_ifs at hf with h1 h2 h3 <;> cases hf <;> subst_vars <;> decide)

/-- `reclassifyTrashed` (src/triggers/bernard/postprocess.go), the generic
diff reclassification pass. `gc` is `getChange` returning the (old, new)
pair; `tr` is `isTrash`. The in-place splice loop (`append` to
added/removed, remove from changed, `i--`) is rendered as structural
recursion preserving traversal order. -/
def reclassifyTrashed {D T : Type} (gc : D → T × T) (tr : T → Bool) :
    List D → List T → List T → List D × List T × List T
  | [], added, removed => ([], added, removed)
  | d :: rest, added, removed =>
      if tr (gc d).1 && !tr (gc d).2 then
        reclassifyTrashed gc tr rest (added ++ [(gc d).2]) removed
      else if !tr (gc d).1 && tr (gc d).2 then
        reclassifyTrashed gc tr rest added (removed ++ [(gc d).2])
      else
        let res := reclassifyTrashed gc tr rest added removed
        (d :: res.1, res.2.1, res.2.2)

/-- Entry moved from Changed to Added: old trashed, new not. -/
def movesToAdded {D T : Type} (gc : D → T × T) (tr : T → Bool) (d : D) : Bool :=
  tr (gc d).1 && !tr (gc d).2

/-- Entry moved from Changed to Removed: old not trashed, new trashed. -/
def movesToRemoved {D T : Type} (gc : D → T × T) (tr : T → Bool) (d : D) : Bool :=
  !tr (gc d).1 && tr (gc d).2

/-- Entry kept in Changed: trash state did not flip. -/
def staysChanged {D T : Type} (gc : D → T × T) (tr : T → Bool) (d : D) : Bool :=
  !movesToAdded gc tr d && !movesToRemoved gc tr d

/-- **C10.** The diff reclassification pass conserves entries: the final
Changed list is exactly the initial entries whose trash state did not
flip (in order); Added and Removed each equal the initial list extended,
in traversal order, with the new snapshot of exactly the entries whose
trash state flipped the corresponding way — so entries already in Added
or Removed are never touched — and every initial Changed entry lands in
exactly one of the three lists (the three filters partition the list). -/
theorem reclassifyTrashed_spec {D T : Type} (gc : D → T × T) (tr : T → Bool)
    (changed : List D) :
    ∀ (added removed : List T),
    reclassifyTrashed gc tr changed added removed =
      (changed.filter (staysChanged gc tr),
       added ++ (changed.filter (movesToAdded gc tr)).map (fun d => (gc d).2),
       removed ++ (changed.filter (movesToRemoved gc tr)).map (fun d => (gc d).2)) ∧
    (changed.filter (staysChanged gc tr)).length +
      (changed.filter (movesToAdded gc tr)).length +
      (changed.filter (movesToRemoved gc tr)).length = changed.length := by
  induction changed with
  | nil => intro a r; exact ⟨by simp [reclassifyTrashed], rfl⟩
  | cons d rest ih =>
      intro a r
      cases he : tr (gc d).1 <;> cases hd : tr (gc d).2 <;>
        simp only [reclassifyTrashed, he, hd, Bool.not_true, Bool.not_false,
          Bool.true_and, Bool.false_and, Bool.and_true, Bool.and_false,
          Bool.false_eq_true, if_true, if_false]
      · rcases ih a r with ⟨h1, h2⟩
        rw [h1]
        simp [List.filter_cons, staysChanged, movesToAdded, movesToRemoved,
          he, hd]
        omega
      · rcases ih a (r ++ [(gc d).2]) with ⟨h1, h2⟩
        rw [h1]
        simp [List.filter_cons, staysChanged, movesToAdded, movesToRemoved,
          he, hd]
        omega
      · rcases ih (a ++ [(gc d).2]) r with ⟨h1, h2⟩
        rw [h1]
        simp [List.filter_cons, staysChanged, movesToAdded, movesToRemoved,
          he, hd]
        omega
      · rcases ih a r with ⟨h1, h2⟩
        rw [h1]
        simp [List.filter_cons, staysChanged, movesToAdded, movesToRemoved,
          he, hd]
        omega
